import Mathlib

/-!
Verification of the SyncUp availability interval engine
(`src/components/UnifiedGroupCalendar.tsx`).

The data model and operations below are shallow embeddings of the handlers
of the `UnifiedGroupCalendar` component: `mergeOverlappingBlocks`,
`handleAddTimeBlock`, the drag commit in `handleMouseUp`, the resize
`onMouseMove`/`onMouseUp` handlers, `getVisibleBlocks`,
`countOverlappingMembers` and `shouldShowTimeSlot`.  Hours are rationals,
days are indices (0 = Sunday .. 6 = Saturday), owners and block ids are
naturals.
-/

namespace SyncUp

open List

/-- Status of an availability block, after the source union type
"available" | "busy". -/
inductive Status
  | available
  | busy
deriving DecidableEq

/-- A calendar block, after the source record `AvailabilityBlock`
(`id`, `day`, `startHour`, `endHour`, `status`, `userId`). -/
structure AvailabilityBlock where
  id : Nat
  day : Nat
  startHour : ℚ
  endHour : ℚ
  status : Status
  userId : Nat
deriving DecidableEq

/-- The grouping key used by `mergeOverlappingBlocks`: the template string
`day-status` of the source, which is injective in `(day, status)`. -/
def blockKey (b : AvailabilityBlock) : Nat × Status :=
  (b.day, b.status)

/-- Record-key insertion: JavaScript objects keep keys in first-occurrence
order, so a key is appended only when it is new. -/
def insertKey (k : Nat × Status) (ks : List (Nat × Status)) : List (Nat × Status) :=
  if k ∈ ks then ks else ks ++ [k]

/-- The keys of the source's `groupedByDay` record, in first-occurrence
order. -/
def keysOf (blocks : List AvailabilityBlock) : List (Nat × Status) :=
  blocks.foldl (fun ks b => insertKey (blockKey b) ks) []

/-- One group of the source's `groupedByDay` record: the blocks with the
given `day-status` key, in input order. -/
def groupFor (blocks : List AvailabilityBlock) (k : Nat × Status) : List AvailabilityBlock :=
  blocks.filter (fun b => blockKey b = k)

/-- Comparison used by the source's `sort((a, b) => a.startHour - b.startHour)`. -/
def startLE (a b : AvailabilityBlock) : Prop :=
  a.startHour ≤ b.startHour

instance : DecidableRel startLE :=
  fun a b => inferInstanceAs (Decidable (a.startHour ≤ b.startHour))

instance : IsTotal AvailabilityBlock startLE :=
  ⟨fun a b => le_total a.startHour b.startHour⟩

instance : IsTrans AvailabilityBlock startLE :=
  ⟨fun _ _ _ h h' => le_trans h h'⟩

/-- Sort a group by `startHour` ascending. -/
def sortByStart (l : List AvailabilityBlock) : List AvailabilityBlock :=
  l.insertionSort startLE

/-- The fold of the source's merge loop: starting from the running block
`current`, either absorb the next block (when `next.startHour ≤
current.endHour`, taking the larger end) or close `current` and continue
from `next`; the running block is always pushed at the end. -/
def coalesce : AvailabilityBlock → List AvailabilityBlock → List AvailabilityBlock
  | current, [] => [current]
  | current, next :: rest =>
    if next.startHour ≤ current.endHour then
      coalesce { current with endHour := max current.endHour next.endHour } rest
    else
      current :: coalesce next rest

/-- Merge one (already sorted) group. -/
def mergeGroup : List AvailabilityBlock → List AvailabilityBlock
  | [] => []
  | b :: rest => coalesce b rest

/-- The source's `mergeOverlappingBlocks`: group by `(day, status)`, sort
each group by `startHour`, coalesce overlapping or touching blocks, and
emit the groups in record-key order. -/
def mergeOverlappingBlocks (blocks : List AvailabilityBlock) : List AvailabilityBlock :=
  (keysOf blocks).flatMap fun k => mergeGroup (sortByStart (groupFor blocks k))

/-- All blocks of a list have `startHour < endHour` (the interval-model
validity invariant of the specification). -/
def validBlocks (blocks : List AvailabilityBlock) : Prop :=
  ∀ b ∈ blocks, b.startHour < b.endHour

instance (blocks : List AvailabilityBlock) : Decidable (validBlocks blocks) :=
  inferInstanceAs (Decidable (∀ b ∈ blocks, b.startHour < b.endHour))

/-- Some block of the list with the given day and status covers the time
point `q` (half-open containment). -/
def covers (blocks : List AvailabilityBlock) (day : Nat) (st : Status) (q : ℚ) : Prop :=
  ∃ b ∈ blocks, b.day = day ∧ b.status = st ∧ b.startHour ≤ q ∧ q < b.endHour

/-- The canonical-form relation between consecutive blocks of one merged
group: sorted by start, with a strict gap between end and next start. -/
def canonicalRel (a b : AvailabilityBlock) : Prop :=
  a.startHour ≤ b.startHour ∧ a.endHour < b.startHour

theorem coalesce_head :
    ∀ (l : List AvailabilityBlock) (c : AvailabilityBlock),
      ∃ e t, coalesce c l = { c with endHour := e } :: t ∧ c.endHour ≤ e := by
  intro l
  induction l with
  | nil => exact fun c => ⟨c.endHour, [], rfl, le_refl _⟩
  | cons next rest ih =>
    intro c
    by_cases h : next.startHour ≤ c.endHour
    · obtain ⟨e, t, ht, he⟩ := ih { c with endHour := max c.endHour next.endHour }
      exact ⟨e, t, by simp [coalesce, h, ht], le_trans (le_max_left _ _) he⟩
    · exact ⟨c.endHour, coalesce next rest, by simp [coalesce, h], le_refl _⟩

theorem coalesce_shape :
    ∀ (l : List AvailabilityBlock) (c : AvailabilityBlock), ∀ b' ∈ coalesce c l,
      ∃ b ∈ c :: l, b'.id = b.id ∧ b'.day = b.day ∧ b'.status = b.status ∧
        b'.userId = b.userId ∧ b'.startHour = b.startHour ∧ b.endHour ≤ b'.endHour := by
  intro l
  induction l with
  | nil =>
    intro c b' hb'
    refine ⟨c, List.mem_cons_self _ _, ?_⟩
    simp [coalesce] at hb'
    simp [hb']
  | cons next rest ih =>
    intro c b' hb'
    by_cases h : next.startHour ≤ c.endHour
    · simp only [coalesce, if_pos h] at hb'
      obtain ⟨b, hb, h₁, h₂, h₃, h₄, h₅, h₆⟩ := ih _ b' hb'
      rcases List.mem_cons.1 hb with hb | hb
      · refine ⟨c, List.mem_cons_self _ _, ?_⟩
        subst hb
        exact ⟨h₁, h₂, h₃, h₄, h₅, le_trans (le_max_left _ _) h₆⟩
      · exact ⟨b, List.mem_cons_of_mem _ (List.mem_cons_of_mem _ hb), h₁, h₂, h₃, h₄, h₅, h₆⟩
    · simp only [coalesce, if_neg h] at hb'
      rcases List.mem_cons.1 hb' with hb' | hb'
      · exact ⟨c, List.mem_cons_self _ _, by simp [hb']⟩
      · obtain ⟨b, hb, hrest⟩ := ih _ b' hb'
        exact ⟨b, List.mem_cons_of_mem _ hb, hrest⟩

theorem coalesce_chain :
    ∀ (l : List AvailabilityBlock) (c : AvailabilityBlock),
      (c :: l).Sorted startLE → (coalesce c l).Chain' canonicalRel := by
  intro l
  induction l with
  | nil => intro c _; simp [coalesce]
  | cons next rest ih =>
    intro c hs
    rw [List.sorted_cons] at hs
    obtain ⟨hc, hs'⟩ := hs
    by_cases h : next.startHour ≤ c.endHour
    · simp only [coalesce, if_pos h]
      refine ih _ ?_
      rw [List.sorted_cons]
      refine ⟨fun b hb => ?_, (List.sorted_cons.1 hs').2⟩
      exact le_trans (hc next (List.mem_cons_self _ _)) ((List.sorted_cons.1 hs').1 b hb)
    · simp only [coalesce, if_neg h]
      obtain ⟨e, t, ht, _⟩ := coalesce_head rest next
      rw [ht]
      refine List.Chain'.cons ?_ (ht ▸ ih _ hs')
      exact ⟨hc next (List.mem_cons_self _ _), lt_of_not_le h⟩

theorem coalesce_covers :
    ∀ (l : List AvailabilityBlock) (c : AvailabilityBlock),
      (c :: l).Sorted startLE → ∀ q : ℚ,
      ((∃ b ∈ coalesce c l, b.startHour ≤ q ∧ q < b.endHour) ↔
        (∃ b ∈ c :: l, b.startHour ≤ q ∧ q < b.endHour)) := by
  intro l
  induction l with
  | nil => intro c _ q; simp [coalesce]
  | cons next rest ih =>
    intro c hs q
    rw [List.sorted_cons] at hs
    obtain ⟨hc, hs'⟩ := hs
    by_cases h : next.startHour ≤ c.endHour
    · simp only [coalesce, if_pos h]
      have hsort : ({ c with endHour := max c.endHour next.endHour } :: rest).Sorted startLE := by
        rw [List.sorted_cons]
        refine ⟨fun b hb => ?_, (List.sorted_cons.1 hs').2⟩
        exact le_trans (hc next (List.mem_cons_self _ _)) ((List.sorted_cons.1 hs').1 b hb)
      rw [ih _ hsort q]
      constructor
      · rintro ⟨b, hb, hq⟩
        rcases List.mem_cons.1 hb with hb | hb
        · subst hb
          simp only at hq
          by_cases hqe : q < c.endHour
          · exact ⟨c, List.mem_cons_self _ _, hq.1, hqe⟩
          · refine ⟨next, List.mem_cons_of_mem _ (List.mem_cons_self _ _),
              le_trans h (not_lt.1 hqe), ?_⟩
            rcases max_cases c.endHour next.endHour with ⟨hm, _⟩ | ⟨hm, _⟩
            · exact absurd (hm ▸ hq.2) hqe
            · exact hm ▸ hq.2
        · exact ⟨b, List.mem_cons_of_mem _ (List.mem_cons_of_mem _ hb), hq⟩
      · rintro ⟨b, hb, hq⟩
        rcases List.mem_cons.1 hb with hb | hb
        · subst hb
          exact ⟨_, List.mem_cons_self _ _, hq.1, lt_of_lt_of_le hq.2 (le_max_left _ _)⟩
        · rcases List.mem_cons.1 hb with hb | hb
          · subst hb
            exact ⟨_, List.mem_cons_self _ _,
              le_trans (hc b (List.mem_cons_self _ _)) hq.1,
              lt_of_lt_of_le hq.2 (le_max_right _ _)⟩
          · exact ⟨b, List.mem_cons_of_mem _ hb, hq⟩
    · simp only [coalesce, if_neg h]
      constructor
      · rintro ⟨b, hb, hq⟩
        rcases List.mem_cons.1 hb with hb | hb
        · exact ⟨b, hb ▸ List.mem_cons_self _ _, hq⟩
        · obtain ⟨b', hb', hq'⟩ := (ih _ hs' q).1 ⟨b, hb, hq⟩
          exact ⟨b', List.mem_cons_of_mem _ hb', hq'⟩
      · rintro ⟨b, hb, hq⟩
        rcases List.mem_cons.1 hb with hb | hb
        · exact ⟨b, hb ▸ List.mem_cons_self _ _, hq⟩
        · obtain ⟨b', hb', hq'⟩ := (ih _ hs' q).2 ⟨b, hb, hq⟩
          exact ⟨b', List.mem_cons_of_mem _ hb', hq'⟩

theorem coalesce_gapped :
    ∀ (l : List AvailabilityBlock) (c : AvailabilityBlock),
      (c :: l).Chain' (fun a b => a.endHour < b.startHour) → coalesce c l = c :: l := by
  intro l
  induction l with
  | nil => intro c _; rfl
  | cons next rest ih =>
    intro c hch
    rcases List.chain'_cons.1 hch with ⟨hgap, hch'⟩
    simp only [coalesce, if_neg (not_le.2 hgap)]
    rw [ih _ hch']

theorem mem_insertKey {k k' : Nat × Status} {ks : List (Nat × Status)} :
    k ∈ insertKey k' ks ↔ k = k' ∨ k ∈ ks := by
  unfold insertKey
  by_cases h : k' ∈ ks
  · simp only [if_pos h]
    constructor
    · exact Or.inr
    · rintro (rfl | hk) <;> [exact h; exact hk]
  · simp [if_neg h, or_comm]

theorem nodup_insertKey {k : Nat × Status} {ks : List (Nat × Status)}
    (h : ks.Nodup) : (insertKey k ks).Nodup := by
  unfold insertKey
  by_cases hk : k ∈ ks
  · simpa [if_pos hk]
  · rw [if_neg hk, List.nodup_append]
    exact ⟨h, List.nodup_singleton _, fun x hx hxk => hk (List.mem_singleton.1 hxk ▸ hx)⟩

theorem mem_foldl_insertKey {k : Nat × Status} :
    ∀ (blocks : List AvailabilityBlock) (init : List (Nat × Status)),
      (k ∈ blocks.foldl (fun ks b => insertKey (blockKey b) ks) init ↔
        k ∈ init ∨ ∃ b ∈ blocks, blockKey b = k) := by
  intro blocks
  induction blocks with
  | nil => intro init; simp
  | cons b rest ih =>
    intro init
    rw [List.foldl_cons, ih, mem_insertKey]
    constructor
    · rintro ((rfl | h) | ⟨b', hb', hk⟩)
      · exact Or.inr ⟨b, List.mem_cons_self _ _, rfl⟩
      · exact Or.inl h
      · exact Or.inr ⟨b', List.mem_cons_of_mem _ hb', hk⟩
    · rintro (h | ⟨b', hb', hk⟩)
      · exact Or.inl (Or.inr h)
      · rcases List.mem_cons.1 hb' with rfl | hb'
        · exact Or.inl (Or.inl hk.symm)
        · exact Or.inr ⟨b', hb', hk⟩

theorem mem_keysOf {k : Nat × Status} {blocks : List AvailabilityBlock} :
    k ∈ keysOf blocks ↔ ∃ b ∈ blocks, blockKey b = k := by
  rw [keysOf, mem_foldl_insertKey]
  simp

theorem nodup_keysOf (blocks : List AvailabilityBlock) : (keysOf blocks).Nodup := by
  have h : ∀ (bs : List AvailabilityBlock) (init : List (Nat × Status)), init.Nodup →
      (bs.foldl (fun ks b => insertKey (blockKey b) ks) init).Nodup := by
    intro bs
    induction bs with
    | nil => intro init h; simpa
    | cons b rest ih => intro init h; exact ih _ (nodup_insertKey h)
  exact h blocks [] List.nodup_nil

theorem filter_flatMap_allKey (k : Nat × Status) :
    ∀ (ks : List (Nat × Status)) (f : Nat × Status → List AvailabilityBlock),
      (∀ k' ∈ ks, ∀ b ∈ f k', blockKey b = k') → ks.Nodup →
      (ks.flatMap f).filter (fun b => blockKey b = k) =
        if k ∈ ks then f k else [] := by
  intro ks
  induction ks with
  | nil => intro f _ _; simp
  | cons k' ks' ih =>
    intro f hall hnd
    rw [List.flatMap_cons, List.filter_append,
      ih f (fun k'' hk'' => hall k'' (List.mem_cons_of_mem _ hk''))
        (List.nodup_cons.1 hnd).2]
    by_cases hkk : k = k'
    · subst hkk
      have h1 : (f k).filter (fun b => decide (blockKey b = k)) = f k :=
        List.filter_eq_self.2 fun b hb =>
          decide_eq_true (hall k (List.mem_cons_self _ _) b hb)
      have hk' : k ∉ ks' := (List.nodup_cons.1 hnd).1
      simp [h1, hk']
    · have h1 : (f k').filter (fun b => decide (blockKey b = k)) = [] := by
        rw [List.filter_eq_nil_iff]
        intro b hb
        rw [hall k' (List.mem_cons_self _ _) b hb]
        simpa using Ne.symm hkk
      have : (k ∈ k' :: ks') = (k ∈ ks') := by
        simp [List.mem_cons, hkk]
      simp [h1, this]

theorem mem_sortByStart {b : AvailabilityBlock} {l : List AvailabilityBlock} :
    b ∈ sortByStart l ↔ b ∈ l :=
  (List.perm_insertionSort startLE l).mem_iff

theorem mem_groupFor {b : AvailabilityBlock} {blocks : List AvailabilityBlock}
    {k : Nat × Status} : b ∈ groupFor blocks k ↔ b ∈ blocks ∧ blockKey b = k := by
  simp [groupFor, List.mem_filter]

theorem allKey_mergeChunk (blocks : List AvailabilityBlock) (k : Nat × Status) :
    ∀ b ∈ mergeGroup (sortByStart (groupFor blocks k)), blockKey b = k := by
  intro b hb
  rcases hs : sortByStart (groupFor blocks k) with _ | ⟨c, t⟩
  · rw [hs] at hb
    exact absurd hb (List.not_mem_nil b)
  · rw [hs] at hb
    obtain ⟨b₀, hb₀, _, hday, hst, _⟩ := coalesce_shape t c b hb
    have hb₀' : b₀ ∈ groupFor blocks k := mem_sortByStart.1 (hs ▸ hb₀)
    have hk₀ : blockKey b₀ = k := (mem_groupFor.1 hb₀').2
    rw [blockKey, hday, hst]
    exact hk₀

theorem filter_merge (blocks : List AvailabilityBlock) (k : Nat × Status) :
    (mergeOverlappingBlocks blocks).filter (fun b => blockKey b = k) =
      if k ∈ keysOf blocks then mergeGroup (sortByStart (groupFor blocks k)) else [] :=
  filter_flatMap_allKey k (keysOf blocks) _
    (fun k' _ b hb => allKey_mergeChunk blocks k' b hb) (nodup_keysOf blocks)

theorem covers_filter_key (L : List AvailabilityBlock) (d : Nat) (st : Status) (q : ℚ) :
    covers L d st q ↔
      ∃ b ∈ L.filter (fun b => blockKey b = (d, st)), b.startHour ≤ q ∧ q < b.endHour := by
  simp only [covers, List.mem_filter, decide_eq_true_eq, blockKey, Prod.mk.injEq]
  constructor
  · rintro ⟨b, hb, h1, h2, h3⟩
    exact ⟨b, ⟨hb, h1, h2⟩, h3⟩
  · rintro ⟨b, ⟨hb, h1, h2⟩, h3⟩
    exact ⟨b, hb, h1, h2, h3⟩

theorem exists_mem_of_perm {l₁ l₂ : List AvailabilityBlock} (h : l₁.Perm l₂)
    {P : AvailabilityBlock → Prop} : (∃ b ∈ l₁, P b) ↔ ∃ b ∈ l₂, P b :=
  exists_congr fun _ => and_congr_left fun _ => h.mem_iff

theorem merge_covers_iff (blocks : List AvailabilityBlock) (d : Nat) (st : Status) (q : ℚ) :
    covers (mergeOverlappingBlocks blocks) d st q ↔ covers blocks d st q := by
  rw [covers_filter_key, covers_filter_key blocks d st q, filter_merge]
  by_cases hk : (d, st) ∈ keysOf blocks
  · rw [if_pos hk]
    rcases hs : sortByStart (groupFor blocks (d, st)) with _ | ⟨c, t⟩
    · exfalso
      obtain ⟨b, hb, hbk⟩ := mem_keysOf.1 hk
      have hmem : b ∈ sortByStart (groupFor blocks (d, st)) :=
        mem_sortByStart.2 (mem_groupFor.2 ⟨hb, hbk⟩)
      rw [hs] at hmem
      exact List.not_mem_nil b hmem
    · have hsort : (c :: t).Sorted startLE := hs ▸ List.sorted_insertionSort startLE _
      have hperm : (c :: t).Perm (groupFor blocks (d, st)) :=
        hs ▸ List.perm_insertionSort startLE _
      calc (∃ b ∈ mergeGroup (c :: t), b.startHour ≤ q ∧ q < b.endHour)
          ↔ ∃ b ∈ c :: t, b.startHour ≤ q ∧ q < b.endHour := coalesce_covers t c hsort q
        _ ↔ ∃ b ∈ groupFor blocks (d, st), b.startHour ≤ q ∧ q < b.endHour :=
            exists_mem_of_perm hperm
  · rw [if_neg hk]
    constructor
    · rintro ⟨b, hb, _⟩
      exact absurd hb (List.not_mem_nil b)
    · rintro ⟨b, hb, _⟩
      exact absurd (mem_keysOf.2 ⟨b, (List.mem_filter.1 hb).1,
        of_decide_eq_true (List.mem_filter.1 hb).2⟩) hk

/-- C1: for every input list, every `(day, status)` group of the output of
`mergeOverlappingBlocks` is sorted by start ascending and every two
consecutive blocks of the group keep a strict gap
(`previous.endHour < next.startHour`). -/
theorem merge_groups_canonical (blocks : List AvailabilityBlock) (d : Nat) (st : Status) :
    ((mergeOverlappingBlocks blocks).filter
      (fun b => b.day = d ∧ b.status = st)).Chain' canonicalRel := by
  have hfe : (mergeOverlappingBlocks blocks).filter (fun b => b.day = d ∧ b.status = st)
      = (mergeOverlappingBlocks blocks).filter (fun b => blockKey b = (d, st)) := by
    refine List.filter_congr fun b _ => ?_
    simp [blockKey, Prod.ext_iff]
  rw [hfe, filter_merge]
  by_cases hk : (d, st) ∈ keysOf blocks
  · rw [if_pos hk]
    rcases hs : sortByStart (groupFor blocks (d, st)) with _ | ⟨c, t⟩
    · simp [mergeGroup]
    · have hsort : (c :: t).Sorted startLE := hs ▸ List.sorted_insertionSort startLE _
      simpa [mergeGroup] using coalesce_chain t c hsort
  · rw [if_neg hk]
    exact List.chain'_nil

/-- C10: `mergeOverlappingBlocks` preserves coverage exactly — a time point
of a given day and status is covered by the output iff it is covered by the
input. -/
theorem merge_preserves_coverage (blocks : List AvailabilityBlock) (d : Nat)
    (st : Status) (q : ℚ) :
    covers (mergeOverlappingBlocks blocks) d st q ↔ covers blocks d st q :=
  merge_covers_iff blocks d st q

instance : IsTrans AvailabilityBlock canonicalRel :=
  ⟨fun _ _ _ h h' => ⟨le_trans h.1 h'.1, lt_of_lt_of_le h.2 h'.1⟩⟩

theorem insertKey_idem (k : Nat × Status) (ks : List (Nat × Status)) :
    insertKey k (insertKey k ks) = insertKey k ks := by
  unfold insertKey
  by_cases h : k ∈ ks
  · simp [if_pos h]
  · rw [if_neg h, if_pos (by simp)]

theorem foldl_insertKey_allKey (k : Nat × Status) :
    ∀ (chunk : List AvailabilityBlock) (init : List (Nat × Status)), chunk ≠ [] →
      (∀ b ∈ chunk, blockKey b = k) →
      chunk.foldl (fun ks b => insertKey (blockKey b) ks) init = insertKey k init := by
  intro chunk
  induction chunk with
  | nil => intro init h; exact absurd rfl h
  | cons c rest ih =>
    intro init _ hall
    rw [List.foldl_cons, hall c (List.mem_cons_self _ _)]
    rcases rest with _ | ⟨c', rest'⟩
    · rfl
    · rw [ih _ (List.cons_ne_nil c' rest') (fun b hb => hall b (List.mem_cons_of_mem _ hb)),
        insertKey_idem]

theorem foldl_insertKey_flatMap (f : Nat × Status → List AvailabilityBlock) :
    ∀ (ks : List (Nat × Status)) (init : List (Nat × Status)),
      (∀ k ∈ ks, f k ≠ [] ∧ ∀ b ∈ f k, blockKey b = k) →
      (ks.flatMap f).foldl (fun acc b => insertKey (blockKey b) acc) init =
        ks.foldl (fun acc k => insertKey k acc) init := by
  intro ks
  induction ks with
  | nil => intro init _; rfl
  | cons k ks' ih =>
    intro init hall
    rw [List.flatMap_cons, List.foldl_append,
      foldl_insertKey_allKey k (f k) init (hall k (List.mem_cons_self _ _)).1
        (hall k (List.mem_cons_self _ _)).2,
      ih _ (fun k' hk' => hall k' (List.mem_cons_of_mem _ hk')), List.foldl_cons]

theorem foldl_insertKey_fresh :
    ∀ (ks init : List (Nat × Status)), ks.Nodup → (∀ k ∈ ks, k ∉ init) →
      ks.foldl (fun acc k => insertKey k acc) init = init ++ ks := by
  intro ks
  induction ks with
  | nil => intro init _ _; simp
  | cons k ks' ih =>
    intro init hnd hfresh
    have h1 : insertKey k init = init ++ [k] := by
      unfold insertKey
      rw [if_neg (hfresh k (List.mem_cons_self _ _))]
    rw [List.foldl_cons, h1,
      ih (init ++ [k]) (List.nodup_cons.1 hnd).2 ?_, List.append_assoc]
    · rfl
    · intro k' hk' hmem
      rcases List.mem_append.1 hmem with h | h
      · exact hfresh k' (List.mem_cons_of_mem _ hk') h
      · exact (List.nodup_cons.1 hnd).1 (List.mem_singleton.1 h ▸ hk')

theorem mergeChunk_ne_nil {blocks : List AvailabilityBlock} {k : Nat × Status}
    (hk : k ∈ keysOf blocks) : mergeGroup (sortByStart (groupFor blocks k)) ≠ [] := by
  rcases hs : sortByStart (groupFor blocks k) with _ | ⟨c, t⟩
  · exfalso
    obtain ⟨b, hb, hbk⟩ := mem_keysOf.1 hk
    have hmem : b ∈ sortByStart (groupFor blocks k) :=
      mem_sortByStart.2 (mem_groupFor.2 ⟨hb, hbk⟩)
    rw [hs] at hmem
    exact List.not_mem_nil b hmem
  · obtain ⟨e, t', ht, _⟩ := coalesce_head t c
    simp [mergeGroup, ht]

theorem keysOf_merge (blocks : List AvailabilityBlock) :
    keysOf (mergeOverlappingBlocks blocks) = keysOf blocks := by
  rw [mergeOverlappingBlocks, keysOf, foldl_insertKey_flatMap _ (keysOf blocks) []
    (fun k hk => ⟨mergeChunk_ne_nil hk, allKey_mergeChunk blocks k⟩),
    foldl_insertKey_fresh (keysOf blocks) [] (nodup_keysOf blocks) (by simp),
    List.nil_append]

theorem mergeChunk_canonical (blocks : List AvailabilityBlock) (k : Nat × Status) :
    (mergeGroup (sortByStart (groupFor blocks k))).Chain' canonicalRel := by
  rcases hs : sortByStart (groupFor blocks k) with _ | ⟨c, t⟩
  · simp [mergeGroup]
  · have hsort : (c :: t).Sorted startLE := hs ▸ List.sorted_insertionSort startLE _
    simpa [mergeGroup] using coalesce_chain t c hsort

theorem mergeGroup_of_canonical {l : List AvailabilityBlock}
    (h : l.Chain' canonicalRel) : mergeGroup (sortByStart l) = l := by
  have hpair : l.Pairwise canonicalRel := List.chain'_iff_pairwise.1 h
  have hsorted : l.Sorted startLE := hpair.imp fun hab => hab.1
  rw [sortByStart, hsorted.insertionSort_eq]
  rcases l with _ | ⟨c, t⟩
  · rfl
  · have hgap : (c :: t).Chain' fun a b => a.endHour < b.startHour :=
      h.imp fun _ _ hab => hab.2
    simpa [mergeGroup] using coalesce_gapped t c hgap

/-- C6: `mergeOverlappingBlocks` is idempotent — merging an already merged
list returns it unchanged. -/
theorem merge_idempotent (blocks : List AvailabilityBlock) :
    mergeOverlappingBlocks (mergeOverlappingBlocks blocks) = mergeOverlappingBlocks blocks := by
  have hcongr : ∀ k ∈ keysOf blocks,
      mergeGroup (sortByStart (groupFor (mergeOverlappingBlocks blocks) k)) =
        mergeGroup (sortByStart (groupFor blocks k)) := by
    intro k hk
    have hgf : groupFor (mergeOverlappingBlocks blocks) k =
        mergeGroup (sortByStart (groupFor blocks k)) := by
      show (mergeOverlappingBlocks blocks).filter (fun b => blockKey b = k) = _
      rw [filter_merge, if_pos hk]
    rw [hgf, mergeGroup_of_canonical (mergeChunk_canonical blocks k)]
  show (keysOf (mergeOverlappingBlocks blocks)).flatMap
      (fun k => mergeGroup (sortByStart (groupFor (mergeOverlappingBlocks blocks) k)))
    = mergeOverlappingBlocks blocks
  rw [keysOf_merge, List.flatMap_congr hcongr]
  rfl

/-- The three-disjunct overlap test the source repeats at every conflict
site, with `(s, e)` the bounds tested against the block `(os, oe)`:
`(s >= os && s < oe) || (e > os && e <= oe) || (s <= os && e >= oe)`. -/
def overlapTest (s e os oe : ℚ) : Prop :=
  (s ≥ os ∧ s < oe) ∨ (e > os ∧ e ≤ oe) ∨ (s ≤ os ∧ e ≥ oe)

instance (s e os oe : ℚ) : Decidable (overlapTest s e os oe) :=
  inferInstanceAs (Decidable ((s ≥ os ∧ s < oe) ∨ (e > os ∧ e ≤ oe) ∨ (s ≤ os ∧ e ≥ oe)))

/-- On valid intervals the three-disjunct test is exactly numeric
overlap of [s, e) and [os, oe). -/
theorem overlapTest_iff {s e os oe : ℚ} (h1 : s < e) (h2 : os < oe) :
    overlapTest s e os oe ↔ os < e ∧ s < oe := by
  unfold overlapTest
  constructor
  · rintro (⟨h, h'⟩ | ⟨h, h'⟩ | ⟨h, h'⟩) <;> exact ⟨by linarith, by linarith⟩
  · rintro ⟨h, h'⟩
    rcases le_or_lt os s with hc | hc
    · exact Or.inl ⟨hc, h'⟩
    · rcases le_or_lt e oe with hd | hd
      · exact Or.inr (Or.inl ⟨h, hd⟩)
      · exact Or.inr (Or.inr ⟨le_of_lt hc, le_of_lt hd⟩)

/-- The conflict check of `handleAddTimeBlock`: some block of the same day
and a different status passes the three-disjunct test against the
candidate bounds. -/
def hasConflict (blocks : List AvailabilityBlock) (day : Nat) (st : Status)
    (startHour endHour : ℚ) : Bool :=
  blocks.any fun b =>
    decide (b.day = day) && decide (¬ b.status = st) &&
      decide (overlapTest startHour endHour b.startHour b.endHour)

/-- The conflict check of the drag commit in `handleMouseUp`: the selected
range is `[minHour, maxHour + 1)` and the three-disjunct test is applied
to each block's bounds against that range. -/
def dragHasConflict (blocks : List AvailabilityBlock) (day : Nat) (st : Status)
    (minHour maxHour : ℚ) : Bool :=
  blocks.any fun b =>
    decide (b.day = day) && decide (¬ b.status = st) &&
      decide (overlapTest b.startHour b.endHour minHour (maxHour + 1))

/-- C4: on valid intervals, both conflict checks report a conflict iff some
existing block of the same day and opposite status numerically overlaps the
candidate (`candidate.start < other.end` and `other.start < candidate.end`);
a same-status block never causes a conflict. -/
theorem conflict_iff_opposite_overlap (blocks : List AvailabilityBlock) (day : Nat)
    (st : Status) (s e minHour maxHour : ℚ) (hse : s < e) (hmm : minHour ≤ maxHour)
    (hv : validBlocks blocks) :
    (hasConflict blocks day st s e = true ↔
      ∃ b ∈ blocks, b.day = day ∧ b.status ≠ st ∧ s < b.endHour ∧ b.startHour < e) ∧
    (dragHasConflict blocks day st minHour maxHour = true ↔
      ∃ b ∈ blocks, b.day = day ∧ b.status ≠ st ∧
        minHour < b.endHour ∧ b.startHour < maxHour + 1) := by
  constructor
  · rw [hasConflict, List.any_eq_true]
    simp only [Bool.and_eq_true, decide_eq_true_eq]
    constructor
    · rintro ⟨b, hb, ⟨hd, hst⟩, hov⟩
      have := (overlapTest_iff hse (hv b hb)).1 hov
      exact ⟨b, hb, hd, hst, this.2, this.1⟩
    · rintro ⟨b, hb, hd, hst, h1, h2⟩
      exact ⟨b, hb, ⟨hd, hst⟩, (overlapTest_iff hse (hv b hb)).2 ⟨h2, h1⟩⟩
  · rw [dragHasConflict, List.any_eq_true]
    simp only [Bool.and_eq_true, decide_eq_true_eq]
    have hrange : minHour < maxHour + 1 := by linarith
    constructor
    · rintro ⟨b, hb, ⟨hd, hst⟩, hov⟩
      have := (overlapTest_iff (hv b hb) hrange).1 hov
      exact ⟨b, hb, hd, hst, this.1, this.2⟩
    · rintro ⟨b, hb, hd, hst, h1, h2⟩
      exact ⟨b, hb, ⟨hd, hst⟩, (overlapTest_iff (hv b hb) hrange).2 ⟨h1, h2⟩⟩

/-- Witness for C4 at a concrete input: one Available block on Monday 9-11,
a Busy candidate 10-12 (exact-time form) and a Busy drag selection of the
cells 10 and 11. -/
theorem conflict_iff_opposite_overlap_witness :
    ((10 : ℚ) < 12 ∧ (10 : ℚ) ≤ 11 ∧
      validBlocks [⟨0, 1, 9, 11, Status.available, 0⟩]) ∧
    (hasConflict [⟨0, 1, 9, 11, Status.available, 0⟩] 1 Status.busy 10 12 = true ↔
      ∃ b ∈ [(⟨0, 1, 9, 11, Status.available, 0⟩ : AvailabilityBlock)], b.day = 1 ∧
        b.status ≠ Status.busy ∧ (10 : ℚ) < b.endHour ∧ b.startHour < 12) :=
  ⟨⟨by norm_num, by norm_num, by decide⟩,
    (conflict_iff_opposite_overlap [⟨0, 1, 9, 11, Status.available, 0⟩] 1 Status.busy
      10 12 10 11 (by norm_num) (by norm_num) (by decide)).1⟩

/-- The drag commit of `handleMouseUp` in add mode: reject on conflict,
otherwise drop the same-day same-status blocks passing the three-disjunct
test against the selected range `[minHour, maxHour + 1)`, append the new
block and merge. -/
def dragCommitAdd (blocks : List AvailabilityBlock) (day : Nat) (minHour maxHour : ℚ)
    (st : Status) (newId newOwner : Nat) : List AvailabilityBlock :=
  if dragHasConflict blocks day st minHour maxHour then blocks
  else
    mergeOverlappingBlocks
      ((blocks.filter fun b =>
          ¬(b.day = day ∧ b.status = st ∧
            overlapTest b.startHour b.endHour minHour (maxHour + 1))) ++
        [⟨newId, day, minHour, maxHour + 1, st, newOwner⟩])

/-- The drag commit of `handleMouseUp` in remove mode: delete every block
of the day passing the three-disjunct test against the selected range,
regardless of status. -/
def dragCommitRemove (blocks : List AvailabilityBlock) (day : Nat)
    (minHour maxHour : ℚ) : List AvailabilityBlock :=
  blocks.filter fun b =>
    ¬(b.day = day ∧ overlapTest b.startHour b.endHour minHour (maxHour + 1))

/-- The exact-time entry path `handleAddTimeBlock`: validate the bounds,
check conflicts, then append the new block and merge the whole set. -/
def handleAddTimeBlock (blocks : List AvailabilityBlock) (day : Nat) (st : Status)
    (startHour endHour : ℚ) (newId newOwner : Nat) : List AvailabilityBlock :=
  if endHour ≤ startHour then blocks
  else if startHour < 8 ∨ 22 < endHour then blocks
  else if hasConflict blocks day st startHour endHour then blocks
  else mergeOverlappingBlocks (blocks ++ [⟨newId, day, startHour, endHour, st, newOwner⟩])

/-- The edge being dragged during a resize ("top" or "bottom"). -/
inductive ResizeEdge
  | top
  | bottom
deriving DecidableEq

/-- New start bound of the resized block for the current pointer hour:
dragging the top edge clamps so at least a quarter hour remains. -/
def resizeNewStart (edge : ResizeEdge) (hour : ℚ) (b : AvailabilityBlock) : ℚ :=
  match edge with
  | .bottom => b.startHour
  | .top => min hour (b.endHour - 1/4)

/-- New end bound of the resized block for the current pointer hour:
dragging the bottom edge clamps so at least a quarter hour remains. -/
def resizeNewEnd (edge : ResizeEdge) (hour : ℚ) (b : AvailabilityBlock) : ℚ :=
  match edge with
  | .bottom => max hour (b.startHour + 1/4)
  | .top => b.endHour

/-- The conflict test of the resize `onMouseMove` handler: some other block
(different id, same day, different status) passes the three-disjunct test
against the proposed new bounds. -/
def resizeConflict (blocks : List AvailabilityBlock) (b : AvailabilityBlock)
    (ns ne : ℚ) : Bool :=
  blocks.any fun other =>
    decide (¬ other.id = b.id) && decide (other.day = b.day) &&
      decide (¬ other.status = b.status) &&
      decide (overlapTest ns ne other.startHour other.endHour)

/-- How one block reacts to a resize `onMouseMove`: the block matching the
resized id and day moves its dragged edge to the pointer hour unless the
move would conflict, in which case it keeps its previous bounds; every
other block is untouched. -/
def resizeFn (blocks : List AvailabilityBlock) (rid rday : Nat) (edge : ResizeEdge)
    (hour : ℚ) (b : AvailabilityBlock) : AvailabilityBlock :=
  if b.id = rid ∧ b.day = rday then
    if resizeConflict blocks b (resizeNewStart edge hour b) (resizeNewEnd edge hour b) then b
    else { b with startHour := resizeNewStart edge hour b,
                  endHour := resizeNewEnd edge hour b }
  else b

/-- One `onMouseMove` step of a resize maps `resizeFn` over the previous
block list. -/
def resizeMove (blocks : List AvailabilityBlock) (rid rday : Nat) (edge : ResizeEdge)
    (hour : ℚ) : List AvailabilityBlock :=
  blocks.map (resizeFn blocks rid rday edge hour)

/-- C5: a reported conflict is a no-op — for the exact-time add, the drag
add and a resize move whose proposed bounds conflict, the block list is
returned unchanged (so a resize keeps its last non-conflicting bounds). -/
theorem conflict_rejection_noop (blocks : List AvailabilityBlock) (day : Nat)
    (st : Status) (s e minHour maxHour : ℚ) (rid rday : Nat) (edge : ResizeEdge)
    (hour : ℚ) (newId newOwner : Nat) :
    (hasConflict blocks day st s e = true →
      handleAddTimeBlock blocks day st s e newId newOwner = blocks) ∧
    (dragHasConflict blocks day st minHour maxHour = true →
      dragCommitAdd blocks day minHour maxHour st newId newOwner = blocks) ∧
    ((∀ b ∈ blocks, b.id = rid → b.day = rday →
        resizeConflict blocks b (resizeNewStart edge hour b) (resizeNewEnd edge hour b)
          = true) →
      resizeMove blocks rid rday edge hour = blocks) := by
  refine ⟨?_, ?_, ?_⟩
  · intro h
    simp [handleAddTimeBlock, h]
  · intro h
    unfold dragCommitAdd
    rw [if_pos h]
  · intro h
    unfold resizeMove
    have hmap : blocks.map (resizeFn blocks rid rday edge hour) = blocks.map id := by
      refine List.map_congr_left fun b hb => ?_
      unfold resizeFn
      by_cases hb' : b.id = rid ∧ b.day = rday
      · rw [if_pos hb', if_pos (h b hb hb'.1 hb'.2)]
        rfl
      · rw [if_neg hb']
        rfl
    rw [hmap, List.map_id]

/-- Witness for C5: one Available block Monday 9-11 and one Busy block
Monday 12:30-14; a Busy 10-12 exact-time candidate conflicts, a Busy drag
over cells 10-11 conflicts, and dragging the Busy block's top edge to hour
10 conflicts; each attempt leaves the list unchanged. -/
theorem conflict_rejection_noop_witness :
    (hasConflict
        [⟨0, 1, 9, 11, Status.available, 0⟩, ⟨1, 1, 25/2, 14, Status.busy, 0⟩]
        1 Status.busy 10 12 = true) ∧
    (handleAddTimeBlock
        [⟨0, 1, 9, 11, Status.available, 0⟩, ⟨1, 1, 25/2, 14, Status.busy, 0⟩]
        1 Status.busy 10 12 99 0 =
      [⟨0, 1, 9, 11, Status.available, 0⟩, ⟨1, 1, 25/2, 14, Status.busy, 0⟩]) :=
  ⟨by decide,
    (conflict_rejection_noop
      [⟨0, 1, 9, 11, Status.available, 0⟩, ⟨1, 1, 25/2, 14, Status.busy, 0⟩]
      1 Status.busy 10 12 10 11 1 1 ResizeEdge.top 10 99 0).1 (by decide)⟩

/-- The drag-add commit as the specification words it (reference for the
refinement comparison, not source code): on no conflict, remove only the
same-status same-day blocks *fully enclosed* by the selected range, insert
the new block, and merge. -/
def specDragCommitAdd (blocks : List AvailabilityBlock) (day : Nat)
    (minHour maxHour : ℚ) (st : Status) (newId newOwner : Nat) : List AvailabilityBlock :=
  if dragHasConflict blocks day st minHour maxHour then blocks
  else
    mergeOverlappingBlocks
      ((blocks.filter fun b =>
          ¬(b.day = day ∧ b.status = st ∧
            minHour ≤ b.startHour ∧ b.endHour ≤ maxHour + 1)) ++
        [⟨newId, day, minHour, maxHour + 1, st, newOwner⟩])

unseal Rat.add Rat.sub Rat.mul Rat.inv in
/-- C3 counterexample: the person owns Monday 9-11 Available and drag-adds
the cells 10 and 11 (range [10,12)) with Available selected.  The code
removes the merely *overlapping* block 9-11 and yields the single block
[10,12), while the claim's formula (remove only fully-enclosed blocks,
then merge) yields the single block [9,12). -/
theorem dragAdd_scenarioA_counterexample :
    dragCommitAdd [⟨0, 1, 9, 11, Status.available, 0⟩] 1 10 11 Status.available 1 0 =
      [⟨1, 1, 10, 12, Status.available, 0⟩] ∧
    specDragCommitAdd [⟨0, 1, 9, 11, Status.available, 0⟩] 1 10 11 Status.available 1 0 =
      [⟨0, 1, 9, 12, Status.available, 0⟩] := by
  constructor <;> decide

/-- C3 amended: on valid blocks a drag-add that passes the conflict check
removes the same-day same-status blocks *numerically overlapping* the
selected range [lo, hi) — not only those fully enclosed by it — then
inserts the new block and merges (so Scenario A yields [Mon 10-12], not
[Mon 9-12]). -/
theorem dragAdd_removes_overlapping (blocks : List AvailabilityBlock) (day : Nat)
    (minHour maxHour : ℚ) (st : Status) (newId newOwner : Nat)
    (hv : validBlocks blocks) (hmm : minHour ≤ maxHour) :
    dragCommitAdd blocks day minHour maxHour st newId newOwner =
      if dragHasConflict blocks day st minHour maxHour then blocks
      else
        mergeOverlappingBlocks
          ((blocks.filter fun b =>
              ¬(b.day = day ∧ b.status = st ∧
                minHour < b.endHour ∧ b.startHour < maxHour + 1)) ++
            [⟨newId, day, minHour, maxHour + 1, st, newOwner⟩]) := by
  unfold dragCommitAdd
  by_cases hc : dragHasConflict blocks day st minHour maxHour
  · rw [if_pos hc, if_pos hc]
  · rw [if_neg hc, if_neg hc]
    have hrange : minHour < maxHour + 1 := by linarith
    have hfeq : (blocks.filter fun b => ¬(b.day = day ∧ b.status = st ∧
          overlapTest b.startHour b.endHour minHour (maxHour + 1))) =
        blocks.filter fun b => ¬(b.day = day ∧ b.status = st ∧
          minHour < b.endHour ∧ b.startHour < maxHour + 1) := by
      refine List.filter_congr fun b hb => ?_
      refine decide_eq_decide.2 ?_
      exact not_congr (and_congr_right fun _ => and_congr_right fun _ =>
        overlapTest_iff (hv b hb) hrange)
    rw [hfeq]

/-- Witness for the amended C3 at the Scenario A input. -/
theorem dragAdd_removes_overlapping_witness :
    (validBlocks [⟨0, 1, 9, 11, Status.available, 0⟩] ∧ (10 : ℚ) ≤ 11) ∧
    dragCommitAdd [⟨0, 1, 9, 11, Status.available, 0⟩] 1 10 11 Status.available 1 0 =
      (if dragHasConflict [⟨0, 1, 9, 11, Status.available, 0⟩] 1 Status.available 10 11
       then [⟨0, 1, 9, 11, Status.available, 0⟩]
       else
        mergeOverlappingBlocks
          (([⟨0, 1, 9, 11, Status.available, 0⟩].filter fun b =>
              ¬(b.day = 1 ∧ b.status = Status.available ∧
                (10 : ℚ) < b.endHour ∧ b.startHour < 11 + 1)) ++
            [⟨1, 1, 10, 11 + 1, Status.available, 0⟩])) :=
  ⟨⟨by decide, by norm_num⟩,
    dragAdd_removes_overlapping [⟨0, 1, 9, 11, Status.available, 0⟩] 1 10 11
      Status.available 1 0 (by decide) (by norm_num)⟩

/-- Number of visible blocks of the given day and status covering the hour,
counted with multiplicity (the source's `.filter(...).length`). -/
def blocksCoveringCount (visibleBlocks : List AvailabilityBlock) (day : Nat)
    (st : Status) (hour : ℚ) : Nat :=
  (visibleBlocks.filter fun b =>
    b.day = day ∧ b.status = st ∧ hour ≥ b.startHour ∧ hour < b.endHour).length

/-- `shouldShowTimeSlot`: with no overlap filter active every slot passes;
with the free (busy) overlap filter active, a slot passes when at least two
visible blocks of the matching status cover the hour. -/
def shouldShowTimeSlot (showOnlyOverlapFree showOnlyOverlapBusy : Bool)
    (visibleBlocks : List AvailabilityBlock) (day : Nat) (hour : ℚ) : Bool :=
  if !showOnlyOverlapFree && !showOnlyOverlapBusy then true
  else if showOnlyOverlapFree then
    decide (2 ≤ blocksCoveringCount visibleBlocks day Status.available hour)
  else if showOnlyOverlapBusy then
    decide (2 ≤ blocksCoveringCount visibleBlocks day Status.busy hour)
  else false

/-- Number of *distinct owners* with a block of the given day and status
covering the hour (the specification's notion for the overlap filters). -/
def distinctOwnersCovering (visibleBlocks : List AvailabilityBlock) (day : Nat)
    (st : Status) (hour : ℚ) : Nat :=
  ((visibleBlocks.filter fun b =>
      b.day = day ∧ b.status = st ∧ hour ≥ b.startHour ∧ hour < b.endHour).map
    (fun b => b.userId)).dedup.length

/-- C7 counterexample: two Available blocks of the *same* owner covering
Monday 9 make the free-overlap filter pass although only one distinct owner
is available there. -/
theorem overlapFilter_owners_counterexample :
    shouldShowTimeSlot true false
      [⟨0, 1, 9, 11, Status.available, 7⟩, ⟨1, 1, 9, 11, Status.available, 7⟩] 1 9 = true ∧
    distinctOwnersCovering
      [⟨0, 1, 9, 11, Status.available, 7⟩, ⟨1, 1, 9, 11, Status.available, 7⟩]
      1 Status.available 9 = 1 := by
  constructor <;> decide

/-- C7 amended: with no filter active every slot passes; the free (busy)
overlap filter passes iff at least two visible *blocks* — counted with
multiplicity, not distinct owners — of the matching status cover the hour. -/
theorem overlapFilter_blocks_iff (sf sb : Bool) (visibleBlocks : List AvailabilityBlock)
    (day : Nat) (hour : ℚ) :
    shouldShowTimeSlot sf sb visibleBlocks day hour = true ↔
      ((sf = false ∧ sb = false) ∨
        (sf = true ∧ 2 ≤ blocksCoveringCount visibleBlocks day Status.available hour) ∨
        (sf = false ∧ sb = true ∧
          2 ≤ blocksCoveringCount visibleBlocks day Status.busy hour)) := by
  cases sf <;> cases sb <;> simp [shouldShowTimeSlot]

/-- `getVisibleBlocks`: the local person's blocks when the local person is
toggled visible, together with the other members' blocks whose owner is
toggled visible. -/
def getVisibleBlocks (visibleMembers : Finset Nat) (currentUserId : Nat)
    (blocks allMemberBlocks : List AvailabilityBlock) : List AvailabilityBlock :=
  (if currentUserId ∈ visibleMembers then blocks else []) ++
    allMemberBlocks.filter fun b => b.userId ∈ visibleMembers

/-- `countOverlappingMembers`: the size of the set of `userId`s of visible
Available blocks of the day covering the hour (the source collects them in
a JavaScript `Set`). -/
def countOverlappingMembers (visibleMembers : Finset Nat) (currentUserId : Nat)
    (blocks allMemberBlocks : List AvailabilityBlock) (day : Nat) (hour : ℚ) : Nat :=
  (((getVisibleBlocks visibleMembers currentUserId blocks allMemberBlocks).filter fun b =>
      b.day = day ∧ b.status = Status.available ∧ hour ≥ b.startHour ∧ hour < b.endHour).map
    (fun b => b.userId)).toFinset.card

/-- The specification's notion for C8: the distinct owners in the
visibility set having an Available block (in the whole pool) covering the
hour. -/
def ownersAvailableAt (pool : List AvailabilityBlock) (visibleMembers : Finset Nat)
    (day : Nat) (hour : ℚ) : Finset Nat :=
  ((pool.filter fun b => b.userId ∈ visibleMembers ∧ b.day = day ∧
      b.status = Status.available ∧ hour ≥ b.startHour ∧ hour < b.endHour).map
    (fun b => b.userId)).toFinset

/-- C8: when the local person's list only holds their own blocks, the
overlap count equals the number of distinct owners in the visibility set
with an Available interval covering the hour (half-open containment), and
is therefore at most the size of the visibility set. -/
theorem overlapCount_distinct_owners_bounded (visibleMembers : Finset Nat)
    (currentUserId : Nat) (blocks allMemberBlocks : List AvailabilityBlock)
    (day : Nat) (hour : ℚ)
    (hMine : ∀ b ∈ blocks, b.userId = currentUserId) :
    countOverlappingMembers visibleMembers currentUserId blocks allMemberBlocks day hour =
      (ownersAvailableAt (blocks ++ allMemberBlocks) visibleMembers day hour).card ∧
    countOverlappingMembers visibleMembers currentUserId blocks allMemberBlocks day hour ≤
      visibleMembers.card := by
  have hset : (((getVisibleBlocks visibleMembers currentUserId blocks
        allMemberBlocks).filter fun b =>
        b.day = day ∧ b.status = Status.available ∧ hour ≥ b.startHour ∧
          hour < b.endHour).map (fun b => b.userId)).toFinset =
      ownersAvailableAt (blocks ++ allMemberBlocks) visibleMembers day hour := by
    ext u
    simp only [ownersAvailableAt, List.mem_toFinset, List.mem_map, List.mem_filter,
      decide_eq_true_eq, getVisibleBlocks, List.mem_append]
    constructor
    · rintro ⟨b, ⟨hb, hcond⟩, rfl⟩
      rcases hb with hb | hb
      · by_cases hme : currentUserId ∈ visibleMembers
        · rw [if_pos hme] at hb
          exact ⟨b, ⟨Or.inl hb, hMine b hb ▸ hme, hcond⟩, rfl⟩
        · rw [if_neg hme] at hb
          exact absurd hb (List.not_mem_nil b)
      · exact ⟨b, ⟨Or.inr hb.1, hb.2, hcond⟩, rfl⟩
    · rintro ⟨b, ⟨hb, hvm, hcond⟩, rfl⟩
      rcases hb with hb | hb
      · refine ⟨b, ⟨Or.inl ?_, hcond⟩, rfl⟩
        rw [if_pos (hMine b hb ▸ hvm)]
        exact hb
      · exact ⟨b, ⟨Or.inr ⟨hb, hvm⟩, hcond⟩, rfl⟩
  have hsub : ownersAvailableAt (blocks ++ allMemberBlocks) visibleMembers day hour ⊆
      visibleMembers := by
    intro u hu
    simp only [ownersAvailableAt, List.mem_toFinset, List.mem_map, List.mem_filter,
      decide_eq_true_eq] at hu
    obtain ⟨b, ⟨_, hvm, _⟩, rfl⟩ := hu
    exact hvm
  refine ⟨?_, ?_⟩
  · rw [countOverlappingMembers, hset]
  · rw [countOverlappingMembers, hset]
    exact Finset.card_le_card hsub

/-- Witness for C8: visibility set {5, 6}, local person 5 with one
Available block and one other member 6 with one Available block, both
covering Monday 9. -/
theorem overlapCount_distinct_owners_bounded_witness :
    (∀ b ∈ [(⟨0, 1, 9, 11, Status.available, 5⟩ : AvailabilityBlock)], b.userId = 5) ∧
    (countOverlappingMembers {5, 6} 5 [⟨0, 1, 9, 11, Status.available, 5⟩]
        [⟨1, 1, 9, 11, Status.available, 6⟩] 1 9 =
      (ownersAvailableAt
        ([⟨0, 1, 9, 11, Status.available, 5⟩] ++ [⟨1, 1, 9, 11, Status.available, 6⟩])
        {5, 6} 1 9).card ∧
     countOverlappingMembers {5, 6} 5 [⟨0, 1, 9, 11, Status.available, 5⟩]
        [⟨1, 1, 9, 11, Status.available, 6⟩] 1 9 ≤ ({5, 6} : Finset Nat).card) :=
  ⟨by decide,
    overlapCount_distinct_owners_bounded {5, 6} 5 [⟨0, 1, 9, 11, Status.available, 5⟩]
      [⟨1, 1, 9, 11, Status.available, 6⟩] 1 9 (by decide)⟩

/-- No Available block and Busy block of the same day numerically overlap
(the data model's mutual-exclusion invariant for one person's blocks). -/
def noMixedOverlap (blocks : List AvailabilityBlock) : Prop :=
  ∀ a ∈ blocks, ∀ b ∈ blocks, a.day = b.day → a.status = Status.available →
    b.status = Status.busy → ¬(a.startHour < b.endHour ∧ b.startHour < a.endHour)

instance (blocks : List AvailabilityBlock) : Decidable (noMixedOverlap blocks) :=
  inferInstanceAs (Decidable (∀ a ∈ blocks, ∀ b ∈ blocks, _ → _ → _ → ¬(_ ∧ _)))

/-- The block ids are pairwise distinct (the source generates a fresh id
for every created block). -/
def idsNodup (blocks : List AvailabilityBlock) : Prop :=
  (blocks.map AvailabilityBlock.id).Nodup

instance (blocks : List AvailabilityBlock) : Decidable (idsNodup blocks) :=
  inferInstanceAs (Decidable (blocks.map AvailabilityBlock.id).Nodup)

/-- On valid blocks, mutual exclusion is the same as: no time point of any
day is covered by both an Available and a Busy block. -/
theorem noMixedOverlap_iff_pointwise {blocks : List AvailabilityBlock}
    (hv : validBlocks blocks) :
    noMixedOverlap blocks ↔ ∀ (d : Nat) (q : ℚ),
      ¬(covers blocks d Status.available q ∧ covers blocks d Status.busy q) := by
  constructor
  · rintro h d q ⟨⟨a, ha, had, has, ha1, ha2⟩, ⟨b, hb, hbd, hbs, hb1, hb2⟩⟩
    exact h a ha b hb (had.trans hbd.symm) has hbs
      ⟨lt_of_le_of_lt ha1 hb2, lt_of_le_of_lt hb1 ha2⟩
  · rintro h a ha b hb hd hsa hsb ⟨h1, h2⟩
    refine h a.day (max a.startHour b.startHour) ⟨⟨a, ha, rfl, hsa, le_max_left _ _, ?_⟩,
      ⟨b, hb, hd.symm, hsb, le_max_right _ _, ?_⟩⟩
    · exact max_lt (hv a ha) h2
    · exact max_lt h1 (hv b hb)

theorem merge_shape {blocks : List AvailabilityBlock} :
    ∀ b' ∈ mergeOverlappingBlocks blocks, ∃ b ∈ blocks,
      b'.id = b.id ∧ b'.day = b.day ∧ b'.status = b.status ∧ b'.userId = b.userId ∧
      b'.startHour = b.startHour ∧ b.endHour ≤ b'.endHour := by
  intro b' hb'
  obtain ⟨k, _, hbk⟩ := List.mem_flatMap.1 hb'
  rcases hs : sortByStart (groupFor blocks k) with _ | ⟨c, t⟩
  · rw [hs] at hbk
    exact absurd hbk (by simp [mergeGroup])
  · rw [hs] at hbk
    obtain ⟨b₀, hb₀, hsh⟩ := coalesce_shape t c b' (by simpa [mergeGroup] using hbk)
    have hb₀' : b₀ ∈ groupFor blocks k := mem_sortByStart.1 (hs ▸ hb₀)
    exact ⟨b₀, (mem_groupFor.1 hb₀').1, hsh⟩

theorem merge_valid {blocks : List AvailabilityBlock} (hv : validBlocks blocks) :
    validBlocks (mergeOverlappingBlocks blocks) := by
  intro b' hb'
  obtain ⟨b, hb, _, _, _, _, hstart, hend⟩ := merge_shape b' hb'
  rw [hstart]
  exact lt_of_lt_of_le (hv b hb) hend

theorem merge_noMixed {blocks : List AvailabilityBlock} (hv : validBlocks blocks)
    (h : noMixedOverlap blocks) : noMixedOverlap (mergeOverlappingBlocks blocks) := by
  rw [noMixedOverlap_iff_pointwise (merge_valid hv)]
  intro d q hq
  rw [merge_covers_iff, merge_covers_iff] at hq
  exact (noMixedOverlap_iff_pointwise hv).1 h d q hq

theorem coalesce_ids_sublist :
    ∀ (l : List AvailabilityBlock) (c : AvailabilityBlock),
      (coalesce c l).map AvailabilityBlock.id <+ (c :: l).map AvailabilityBlock.id := by
  intro l
  induction l with
  | nil => intro c; simp [coalesce]
  | cons next rest ih =>
    intro c
    by_cases h : next.startHour ≤ c.endHour
    · simp only [coalesce, if_pos h]
      have hih := ih { c with endHour := max c.endHour next.endHour }
      simp only [List.map_cons] at hih ⊢
      exact hih.trans (List.cons_sublist_cons.2 (List.sublist_cons_self _ _))
    · simp only [coalesce, if_neg h, List.map_cons]
      exact List.cons_sublist_cons.2 (ih next)

theorem chunk_ids_subperm (blocks : List AvailabilityBlock) (k : Nat × Status) :
    (mergeGroup (sortByStart (groupFor blocks k))).map AvailabilityBlock.id <+~
      (groupFor blocks k).map AvailabilityBlock.id := by
  rcases hs : sortByStart (groupFor blocks k) with _ | ⟨c, t⟩
  · simp only [mergeGroup]
    exact List.nil_subperm
  · have h1 : (mergeGroup (c :: t)).map AvailabilityBlock.id <+
        (c :: t).map AvailabilityBlock.id := by
      simpa [mergeGroup] using coalesce_ids_sublist t c
    have hperm : (c :: t).Perm (groupFor blocks k) :=
      hs ▸ List.perm_insertionSort startLE _
    exact h1.subperm.trans (hperm.map AvailabilityBlock.id).subperm

theorem groupFor_filter_ne {blocks : List AvailabilityBlock} {k k' : Nat × Status}
    (hne : k' ≠ k) :
    groupFor (blocks.filter fun b => ¬(blockKey b = k)) k' = groupFor blocks k' := by
  unfold groupFor
  rw [List.filter_filter]
  refine List.filter_congr fun b _ => ?_
  by_cases hb : blockKey b = k'
  · simp [hb, hne]
  · simp [hb]

theorem partition_perm :
    ∀ (ks : List (Nat × Status)) (blocks : List AvailabilityBlock), ks.Nodup →
      (∀ b ∈ blocks, blockKey b ∈ ks) →
      (ks.flatMap fun k => groupFor blocks k) ~ blocks := by
  intro ks
  induction ks with
  | nil =>
    intro blocks _ hall
    have hnil : blocks = [] := List.eq_nil_iff_forall_not_mem.2 fun b hb =>
      absurd (hall b hb) (List.not_mem_nil _)
    simp [hnil]
  | cons k ks' ih =>
    intro blocks hnd hall
    rw [List.flatMap_cons]
    have hcong : ∀ k' ∈ ks', groupFor blocks k' =
        groupFor (blocks.filter fun b => ¬(blockKey b = k)) k' := by
      intro k' hk'
      refine (groupFor_filter_ne fun he => (List.nodup_cons.1 hnd).1 ?_).symm
      rw [← he]
      exact hk'
    rw [List.flatMap_congr hcong]
    have hperm : (ks'.flatMap fun k' =>
        groupFor (blocks.filter fun b => ¬(blockKey b = k)) k')
        ~ blocks.filter fun b => ¬(blockKey b = k) := by
      refine ih _ (List.nodup_cons.1 hnd).2 fun b hb => ?_
      have hbb := List.mem_filter.1 hb
      rcases List.mem_cons.1 (hall b hbb.1) with he | he
      · exact absurd he (of_decide_eq_true hbb.2)
      · exact he
    refine ((List.Perm.refl (groupFor blocks k)).append hperm).trans ?_
    have heq : (blocks.filter fun b => ¬(blockKey b = k)) =
        blocks.filter fun b => !(decide (blockKey b = k)) := by
      refine List.filter_congr fun b _ => ?_
      simp [decide_not]
    rw [heq]
    exact List.filter_append_perm (fun b => decide (blockKey b = k)) blocks

theorem subperm_append {α : Type} {l₁ l₂ r₁ r₂ : List α}
    (h₁ : l₁ <+~ l₂) (h₂ : r₁ <+~ r₂) : l₁ ++ r₁ <+~ l₂ ++ r₂ := by
  obtain ⟨u, hu, hsu⟩ := h₁
  obtain ⟨v, hv, hsv⟩ := h₂
  exact ⟨u ++ v, hu.append hv, hsu.append hsv⟩

theorem flatMap_ids_subperm (ks : List (Nat × Status))
    (f g : Nat × Status → List AvailabilityBlock)
    (h : ∀ k ∈ ks, (f k).map AvailabilityBlock.id <+~ (g k).map AvailabilityBlock.id) :
    (ks.flatMap f).map AvailabilityBlock.id <+~
      (ks.flatMap g).map AvailabilityBlock.id := by
  induction ks with
  | nil => exact ⟨[], List.Perm.refl _, List.Sublist.refl _⟩
  | cons k ks' ih =>
    rw [List.flatMap_cons, List.flatMap_cons, List.map_append, List.map_append]
    exact subperm_append (h k (List.mem_cons_self _ _))
      (ih fun k' hk' => h k' (List.mem_cons_of_mem _ hk'))

theorem merge_ids_subperm (blocks : List AvailabilityBlock) :
    (mergeOverlappingBlocks blocks).map AvailabilityBlock.id <+~
      blocks.map AvailabilityBlock.id := by
  have h1 : (mergeOverlappingBlocks blocks).map AvailabilityBlock.id <+~
      ((keysOf blocks).flatMap fun k => groupFor blocks k).map AvailabilityBlock.id :=
    flatMap_ids_subperm _ _ _ fun k _ => chunk_ids_subperm blocks k
  have h2 := (partition_perm (keysOf blocks) blocks (nodup_keysOf blocks)
    (fun b hb => mem_keysOf.2 ⟨b, hb, rfl⟩)).map AvailabilityBlock.id
  exact h1.trans h2.subperm

theorem merge_idsNodup {blocks : List AvailabilityBlock} (h : idsNodup blocks) :
    idsNodup (mergeOverlappingBlocks blocks) := by
  obtain ⟨u, hu, hsu⟩ := merge_ids_subperm blocks
  exact hu.nodup_iff.1 (List.Nodup.sublist hsu h)

theorem hasConflict_eq_false_iff {blocks : List AvailabilityBlock} {day : Nat}
    {st : Status} {s e : ℚ} :
    hasConflict blocks day st s e = false ↔
      ∀ b ∈ blocks, b.day = day → ¬ b.status = st →
        ¬ overlapTest s e b.startHour b.endHour := by
  simp [hasConflict, List.any_eq_false, and_imp]

theorem dragHasConflict_eq_false_iff {blocks : List AvailabilityBlock} {day : Nat}
    {st : Status} {minHour maxHour : ℚ} :
    dragHasConflict blocks day st minHour maxHour = false ↔
      ∀ b ∈ blocks, b.day = day → ¬ b.status = st →
        ¬ overlapTest b.startHour b.endHour minHour (maxHour + 1) := by
  simp [dragHasConflict, List.any_eq_false, and_imp]

theorem resizeConflict_eq_false_iff {blocks : List AvailabilityBlock}
    {b : AvailabilityBlock} {ns ne : ℚ} :
    resizeConflict blocks b ns ne = false ↔
      ∀ other ∈ blocks, ¬ other.id = b.id → other.day = b.day →
        ¬ other.status = b.status → ¬ overlapTest ns ne other.startHour other.endHour := by
  simp [resizeConflict, List.any_eq_false, and_imp]

theorem resizeBounds_valid (edge : ResizeEdge) (hour : ℚ) (b : AvailabilityBlock) :
    resizeNewStart edge hour b < resizeNewEnd edge hour b := by
  cases edge
  · simp only [resizeNewStart, resizeNewEnd]
    exact lt_of_le_of_lt (min_le_right _ _) (by linarith)
  · simp only [resizeNewStart, resizeNewEnd]
    exact lt_of_lt_of_le (by linarith) (le_max_right _ _)

theorem resizeFn_fields (blocks : List AvailabilityBlock) (rid rday : Nat)
    (edge : ResizeEdge) (hour : ℚ) (b : AvailabilityBlock) :
    (resizeFn blocks rid rday edge hour b).id = b.id ∧
    (resizeFn blocks rid rday edge hour b).day = b.day ∧
    (resizeFn blocks rid rday edge hour b).status = b.status := by
  unfold resizeFn
  split
  · split
    · exact ⟨rfl, rfl, rfl⟩
    · exact ⟨rfl, rfl, rfl⟩
  · exact ⟨rfl, rfl, rfl⟩

theorem resizeFn_cases (blocks : List AvailabilityBlock) (rid rday : Nat)
    (edge : ResizeEdge) (hour : ℚ) (b : AvailabilityBlock) :
    resizeFn blocks rid rday edge hour b = b ∨
    (b.id = rid ∧ b.day = rday ∧
      resizeConflict blocks b (resizeNewStart edge hour b) (resizeNewEnd edge hour b)
        = false ∧
      resizeFn blocks rid rday edge hour b =
        { b with startHour := resizeNewStart edge hour b,
                 endHour := resizeNewEnd edge hour b }) := by
  unfold resizeFn
  by_cases h1 : b.id = rid ∧ b.day = rday
  · rw [if_pos h1]
    by_cases h2 : resizeConflict blocks b (resizeNewStart edge hour b)
        (resizeNewEnd edge hour b) = true
    · rw [if_pos h2]
      exact Or.inl rfl
    · rw [if_neg h2]
      have h2' : resizeConflict blocks b (resizeNewStart edge hour b)
          (resizeNewEnd edge hour b) = false := by
        revert h2
        cases resizeConflict blocks b (resizeNewStart edge hour b)
          (resizeNewEnd edge hour b) <;> simp
      exact Or.inr ⟨h1.1, h1.2, h2', rfl⟩
  · rw [if_neg h1]
    exact Or.inl rfl

theorem resizeMove_valid {blocks : List AvailabilityBlock} (hv : validBlocks blocks)
    (rid rday : Nat) (edge : ResizeEdge) (hour : ℚ) :
    validBlocks (resizeMove blocks rid rday edge hour) := by
  intro b' hb'
  obtain ⟨b, hb, rfl⟩ := List.mem_map.1 hb'
  rcases resizeFn_cases blocks rid rday edge hour b with h | ⟨_, _, _, h⟩
  · rw [h]
    exact hv b hb
  · rw [h]
    exact resizeBounds_valid edge hour b

theorem resizeMove_ids (blocks : List AvailabilityBlock) (rid rday : Nat)
    (edge : ResizeEdge) (hour : ℚ) :
    (resizeMove blocks rid rday edge hour).map AvailabilityBlock.id =
      blocks.map AvailabilityBlock.id := by
  unfold resizeMove
  rw [List.map_map]
  exact List.map_congr_left fun b _ => (resizeFn_fields blocks rid rday edge hour b).1

theorem resizeMove_idsNodup {blocks : List AvailabilityBlock} (h : idsNodup blocks)
    (rid rday : Nat) (edge : ResizeEdge) (hour : ℚ) :
    idsNodup (resizeMove blocks rid rday edge hour) := by
  unfold idsNodup
  rw [resizeMove_ids]
  exact h

theorem resizeMove_noMixed {blocks : List AvailabilityBlock} (hv : validBlocks blocks)
    (hnd : idsNodup blocks) (hnm : noMixedOverlap blocks) (rid rday : Nat)
    (edge : ResizeEdge) (hour : ℚ) :
    noMixedOverlap (resizeMove blocks rid rday edge hour) := by
  intro a' ha' b' hb' hday hsa hsb hov
  obtain ⟨a, ha, rfl⟩ := List.mem_map.1 ha'
  obtain ⟨b, hb, rfl⟩ := List.mem_map.1 hb'
  have hfa := resizeFn_fields blocks rid rday edge hour a
  have hfb := resizeFn_fields blocks rid rday edge hour b
  have hsa' : a.status = Status.available := hfa.2.2 ▸ hsa
  have hsb' : b.status = Status.busy := hfb.2.2 ▸ hsb
  have hdayab : a.day = b.day := by
    rw [← hfa.2.1, ← hfb.2.1]
    exact hday
  have hne : a ≠ b := by
    intro he
    rw [he, hsb'] at hsa'
    exact Status.noConfusion hsa'
  have hidne : a.id ≠ b.id := fun he => hne (List.inj_on_of_nodup_map hnd ha hb he)
  rcases resizeFn_cases blocks rid rday edge hour a with hea | ⟨haid, _, hanc, hea⟩ <;>
    rcases resizeFn_cases blocks rid rday edge hour b with heb | ⟨hbid, _, hbnc, heb⟩
  · rw [hea, heb] at hov
    exact hnm a ha b hb hdayab hsa' hsb' hov
  · rw [hea, heb] at hov
    have hnc := resizeConflict_eq_false_iff.1 hbnc a ha
      (fun he => hidne he) hdayab (by rw [hsa', hsb']; exact fun he => Status.noConfusion he)
    rw [overlapTest_iff (resizeBounds_valid edge hour b) (hv a ha)] at hnc
    exact hnc ⟨hov.1, hov.2⟩
  · rw [hea, heb] at hov
    have hnc := resizeConflict_eq_false_iff.1 hanc b hb
      (fun he => hidne he.symm) hdayab.symm
      (by rw [hsa', hsb']; exact fun he => Status.noConfusion he)
    rw [overlapTest_iff (resizeBounds_valid edge hour a) (hv b hb)] at hnc
    exact hnc ⟨hov.2, hov.1⟩
  · exact hidne (haid.trans hbid.symm)

theorem WF_of_sublist {l₁ l₂ : List AvailabilityBlock} (h : l₁ <+ l₂)
    (hv : validBlocks l₂) (hnd : idsNodup l₂) (hnm : noMixedOverlap l₂) :
    validBlocks l₁ ∧ idsNodup l₁ ∧ noMixedOverlap l₁ :=
  ⟨fun b hb => hv b (h.subset hb),
    List.Nodup.sublist (h.map _) hnd,
    fun a ha b hb => hnm a (h.subset ha) b (h.subset hb)⟩

theorem append_new_valid {L blocks : List AvailabilityBlock} {nb : AvailabilityBlock}
    (hsub : ∀ b ∈ L, b ∈ blocks) (hv : validBlocks blocks)
    (hnb : nb.startHour < nb.endHour) : validBlocks (L ++ [nb]) := by
  intro b hb
  rcases List.mem_append.1 hb with hb | hb
  · exact hv b (hsub b hb)
  · rw [List.mem_singleton.1 hb]
    exact hnb

theorem append_new_idsNodup {L blocks : List AvailabilityBlock} {nb : AvailabilityBlock}
    (hsub : L.map AvailabilityBlock.id <+ blocks.map AvailabilityBlock.id)
    (hnd : idsNodup blocks) (hfresh : nb.id ∉ blocks.map AvailabilityBlock.id) :
    idsNodup (L ++ [nb]) := by
  unfold idsNodup
  rw [List.map_append, List.nodup_append]
  refine ⟨List.Nodup.sublist hsub hnd, List.nodup_singleton _, ?_⟩
  intro x hx hx'
  rw [List.mem_singleton.1 hx'] at hx
  exact hfresh (hsub.subset hx)

theorem append_new_noMixed {L blocks : List AvailabilityBlock} {nb : AvailabilityBlock}
    (hsub : ∀ b ∈ L, b ∈ blocks) (hnm : noMixedOverlap blocks)
    (hsafe : ∀ b ∈ blocks, b.day = nb.day → ¬ b.status = nb.status →
      ¬(nb.startHour < b.endHour ∧ b.startHour < nb.endHour)) :
    noMixedOverlap (L ++ [nb]) := by
  intro a ha b hb hd hsa hsb hov
  rcases List.mem_append.1 ha with haL | haR <;>
    rcases List.mem_append.1 hb with hbL | hbR
  · exact hnm a (hsub a haL) b (hsub b hbL) hd hsa hsb hov
  · have hbe := List.mem_singleton.1 hbR
    subst hbe
    refine hsafe a (hsub a haL) hd ?_ ⟨hov.2, hov.1⟩
    intro he
    rw [hsa, hsb] at he
    exact Status.noConfusion he
  · have hae := List.mem_singleton.1 haR
    subst hae
    refine hsafe b (hsub b hbL) hd.symm ?_ ⟨hov.1, hov.2⟩
    intro he
    rw [hsb, hsa] at he
    exact Status.noConfusion he
  · have hae := List.mem_singleton.1 haR
    have hbe := List.mem_singleton.1 hbR
    rw [hae] at hsa
    rw [hbe] at hsb
    rw [hsb] at hsa
    exact Status.noConfusion hsa

theorem dragCommitAdd_WF {blocks : List AvailabilityBlock} {day : Nat}
    {minHour maxHour : ℚ} {st : Status} {newId newOwner : Nat}
    (hv : validBlocks blocks) (hnd : idsNodup blocks) (hnm : noMixedOverlap blocks)
    (hmm : minHour ≤ maxHour) (hfresh : newId ∉ blocks.map AvailabilityBlock.id) :
    validBlocks (dragCommitAdd blocks day minHour maxHour st newId newOwner) ∧
    idsNodup (dragCommitAdd blocks day minHour maxHour st newId newOwner) ∧
    noMixedOverlap (dragCommitAdd blocks day minHour maxHour st newId newOwner) := by
  unfold dragCommitAdd
  by_cases hc : dragHasConflict blocks day st minHour maxHour = true
  · rw [if_pos hc]
    exact ⟨hv, hnd, hnm⟩
  · rw [if_neg hc]
    have hc' : dragHasConflict blocks day st minHour maxHour = false := by
      revert hc
      cases dragHasConflict blocks day st minHour maxHour <;> simp
    have hrange : minHour < maxHour + 1 := by linarith
    have hfsub : (blocks.filter fun b =>
        ¬(b.day = day ∧ b.status = st ∧
          overlapTest b.startHour b.endHour minHour (maxHour + 1))) <+ blocks :=
      List.filter_sublist blocks
    have hsafe : ∀ b ∈ blocks, b.day = day → ¬ b.status = st →
        ¬((minHour : ℚ) < b.endHour ∧ b.startHour < maxHour + 1) := by
      intro b hb hbd hbs
      have := dragHasConflict_eq_false_iff.1 hc' b hb hbd hbs
      rw [overlapTest_iff (hv b hb) hrange] at this
      exact this
    refine ⟨merge_valid ?_, merge_idsNodup ?_, merge_noMixed ?_ ?_⟩
    · exact append_new_valid hfsub.subset hv hrange
    · exact append_new_idsNodup (hfsub.map _) hnd hfresh
    · exact append_new_valid hfsub.subset hv hrange
    · exact append_new_noMixed hfsub.subset hnm hsafe

theorem handleAddTimeBlock_WF {blocks : List AvailabilityBlock} {day : Nat}
    {st : Status} {s e : ℚ} {newId newOwner : Nat}
    (hv : validBlocks blocks) (hnd : idsNodup blocks) (hnm : noMixedOverlap blocks)
    (hfresh : newId ∉ blocks.map AvailabilityBlock.id) :
    validBlocks (handleAddTimeBlock blocks day st s e newId newOwner) ∧
    idsNodup (handleAddTimeBlock blocks day st s e newId newOwner) ∧
    noMixedOverlap (handleAddTimeBlock blocks day st s e newId newOwner) := by
  unfold handleAddTimeBlock
  by_cases h1 : e ≤ s
  · rw [if_pos h1]
    exact ⟨hv, hnd, hnm⟩
  · rw [if_neg h1]
    by_cases h2 : s < 8 ∨ 22 < e
    · rw [if_pos h2]
      exact ⟨hv, hnd, hnm⟩
    · rw [if_neg h2]
      by_cases hc : hasConflict blocks day st s e = true
      · rw [if_pos hc]
        exact ⟨hv, hnd, hnm⟩
      · rw [if_neg hc]
        have hc' : hasConflict blocks day st s e = false := by
          revert hc
          cases hasConflict blocks day st s e <;> simp
        have hse : s < e := lt_of_not_le h1
        have hsafe : ∀ b ∈ blocks, b.day = day → ¬ b.status = st →
            ¬((s : ℚ) < b.endHour ∧ b.startHour < e) := by
          intro b hb hbd hbs
          have := hasConflict_eq_false_iff.1 hc' b hb hbd hbs
          rw [overlapTest_iff hse (hv b hb)] at this
          exact fun hp => this ⟨hp.2, hp.1⟩
        refine ⟨merge_valid ?_, merge_idsNodup ?_, merge_noMixed ?_ ?_⟩
        · exact append_new_valid (fun b hb => hb) hv hse
        · exact append_new_idsNodup (List.Sublist.refl _) hnd hfresh
        · exact append_new_valid (fun b hb => hb) hv hse
        · exact append_new_noMixed (fun b hb => hb) hnm hsafe

theorem dragCommitRemove_WF {blocks : List AvailabilityBlock} {day : Nat}
    {minHour maxHour : ℚ}
    (hv : validBlocks blocks) (hnd : idsNodup blocks) (hnm : noMixedOverlap blocks) :
    validBlocks (dragCommitRemove blocks day minHour maxHour) ∧
    idsNodup (dragCommitRemove blocks day minHour maxHour) ∧
    noMixedOverlap (dragCommitRemove blocks day minHour maxHour) :=
  WF_of_sublist (List.filter_sublist blocks) hv hnd hnm

/-- The user-level edit operations of the interaction state machine: a
drag-add commit, a drag-remove commit, an exact-time add, one resize
pointer move, and the merge run at resize pointer-up. -/
inductive CalendarOp
  | dragAdd (day : Nat) (minHour maxHour : ℚ) (st : Status) (newId newOwner : Nat)
  | dragRemove (day : Nat) (minHour maxHour : ℚ)
  | timeAdd (day : Nat) (st : Status) (startHour endHour : ℚ) (newId newOwner : Nat)
  | resizeMoveOp (rid rday : Nat) (edge : ResizeEdge) (hour : ℚ)
  | resizeCommit

/-- Apply one operation to the local person's block list, exactly as the
corresponding source handler does. -/
def applyOp (blocks : List AvailabilityBlock) : CalendarOp → List AvailabilityBlock
  | .dragAdd day lo hi st i o => dragCommitAdd blocks day lo hi st i o
  | .dragRemove day lo hi => dragCommitRemove blocks day lo hi
  | .timeAdd day st s e i o => handleAddTimeBlock blocks day st s e i o
  | .resizeMoveOp rid rday edge hour => resizeMove blocks rid rday edge hour
  | .resizeCommit => mergeOverlappingBlocks blocks

/-- Basic sanity of one operation's parameters relative to the current
state: a drag selection is anchored at or before its current cell, and a
newly created block gets a fresh id (both hold by construction in the
source: `minHour = min(...) ≤ max(...) = maxHour` and ids come from the
increasing `nextId` counter). -/
def opWF (blocks : List AvailabilityBlock) : CalendarOp → Prop
  | .dragAdd _ lo hi _ i _ => lo ≤ hi ∧ i ∉ blocks.map AvailabilityBlock.id
  | .dragRemove _ _ _ => True
  | .timeAdd _ _ _ _ i _ => i ∉ blocks.map AvailabilityBlock.id
  | .resizeMoveOp _ _ _ _ => True
  | .resizeCommit => True

/-- Apply a sequence of operations from left to right. -/
def applyOps (blocks : List AvailabilityBlock) : List CalendarOp → List AvailabilityBlock
  | [] => blocks
  | op :: rest => applyOps (applyOp blocks op) rest

/-- Every operation of the sequence is sane for the state it is applied
to. -/
def opsWF (blocks : List AvailabilityBlock) : List CalendarOp → Prop
  | [] => True
  | op :: rest => opWF blocks op ∧ opsWF (applyOp blocks op) rest

theorem applyOp_WF {blocks : List AvailabilityBlock} {op : CalendarOp}
    (hv : validBlocks blocks) (hnd : idsNodup blocks) (hnm : noMixedOverlap blocks)
    (hop : opWF blocks op) :
    validBlocks (applyOp blocks op) ∧ idsNodup (applyOp blocks op) ∧
      noMixedOverlap (applyOp blocks op) := by
  cases op with
  | dragAdd day lo hi st i o => exact dragCommitAdd_WF hv hnd hnm hop.1 hop.2
  | dragRemove day lo hi => exact dragCommitRemove_WF hv hnd hnm
  | timeAdd day st s e i o => exact handleAddTimeBlock_WF hv hnd hnm hop
  | resizeMoveOp rid rday edge hour =>
    exact ⟨resizeMove_valid hv rid rday edge hour,
      resizeMove_idsNodup hnd rid rday edge hour,
      resizeMove_noMixed hv hnd hnm rid rday edge hour⟩
  | resizeCommit => exact ⟨merge_valid hv, merge_idsNodup hnd, merge_noMixed hv hnm⟩

theorem applyOps_WF {blocks : List AvailabilityBlock} {ops : List CalendarOp}
    (hv : validBlocks blocks) (hnd : idsNodup blocks) (hnm : noMixedOverlap blocks)
    (hops : opsWF blocks ops) :
    validBlocks (applyOps blocks ops) ∧ idsNodup (applyOps blocks ops) ∧
      noMixedOverlap (applyOps blocks ops) := by
  induction ops generalizing blocks with
  | nil => exact ⟨hv, hnd, hnm⟩
  | cons op rest ih =>
    obtain ⟨h1, h2, h3⟩ := applyOp_WF hv hnd hnm hops.1
    exact ih h1 h2 h3 hops.2

/-- C2: starting from a valid block list with distinct ids and no
Available/Busy overlap on any day, any sequence of drag-add, drag-remove,
exact-time-add, resize-move and resize-commit operations (each with sane
parameters; conflicting ones are no-ops by construction) leaves a list
with no Available/Busy overlap on any day. -/
theorem mutual_exclusion_preserved (blocks : List AvailabilityBlock)
    (ops : List CalendarOp) (hv : validBlocks blocks) (hnd : idsNodup blocks)
    (hnm : noMixedOverlap blocks) (hops : opsWF blocks ops) :
    noMixedOverlap (applyOps blocks ops) :=
  (applyOps_WF hv hnd hnm hops).2.2

/-- Witness for C2: starting from a single Available block Monday 9-11,
drag-add a Busy block over the cells 12 and 13, then commit a resize
merge; the result has no Available/Busy overlap. -/
theorem mutual_exclusion_preserved_witness :
    (validBlocks [⟨0, 1, 9, 11, Status.available, 0⟩] ∧
      idsNodup [⟨0, 1, 9, 11, Status.available, 0⟩] ∧
      noMixedOverlap [⟨0, 1, 9, 11, Status.available, 0⟩] ∧
      opsWF [⟨0, 1, 9, 11, Status.available, 0⟩]
        [CalendarOp.dragAdd 1 12 13 Status.busy 1 0, CalendarOp.resizeCommit]) ∧
    noMixedOverlap (applyOps [⟨0, 1, 9, 11, Status.available, 0⟩]
      [CalendarOp.dragAdd 1 12 13 Status.busy 1 0, CalendarOp.resizeCommit]) :=
  ⟨⟨by decide, by decide, by decide, ⟨⟨by decide, by decide⟩, trivial, trivial⟩⟩,
    mutual_exclusion_preserved [⟨0, 1, 9, 11, Status.available, 0⟩]
      [CalendarOp.dragAdd 1 12 13 Status.busy 1 0, CalendarOp.resizeCommit]
      (by decide) (by decide) (by decide) ⟨⟨by decide, by decide⟩, trivial, trivial⟩⟩

/-- Modelled from the spec: a ranked meeting suggestion (the suggestion
engine is announced by the repository's README, "Smart Meeting
Suggestions", but its code is not among the provided sources; this section
follows the specification's `suggestMeetingTimes` description). -/
structure MeetingSuggestion where
  day : Nat
  startHour : ℚ
  endHour : ℚ
  attendance : Nat
deriving DecidableEq

/-- Modelled from the spec: the 56 quarter-hour samples of one day, from
8.0 stepping by 0.25. -/
def sampleHours : List ℚ :=
  (List.range 56).map fun k => 8 + (k : ℚ) / 4

/-- Modelled from the spec: attendance at one sample — the number of
distinct owners with an Available interval covering the hour. -/
def attendanceAt (pool : List AvailabilityBlock) (day : Nat) (hour : ℚ) : Nat :=
  ((pool.filter fun b => b.day = day ∧ b.status = Status.available ∧
      b.startHour ≤ hour ∧ hour < b.endHour).map (fun b => b.userId)).dedup.length

/-- Modelled from the spec: one scan step over the pair of collected
segments and the open segment `(start, attendance)`: extend the open
segment while the attendance stays at or above threshold and unchanged,
close it (ending at the current sample) when the attendance changes or
drops below threshold, and open a new segment when the sample meets the
threshold. -/
def scanStep (pool : List AvailabilityBlock) (day : Nat) (threshold : Nat)
    (acc : List MeetingSuggestion × Option (ℚ × Nat)) (h : ℚ) :
    List MeetingSuggestion × Option (ℚ × Nat) :=
  let a := attendanceAt pool day h
  match acc.2 with
  | none => if threshold ≤ a then (acc.1, some (h, a)) else (acc.1, none)
  | some (s, att) =>
    if threshold ≤ a then
      if a = att then (acc.1, some (s, att))
      else (acc.1 ++ [⟨day, s, h, att⟩], some (h, a))
    else (acc.1 ++ [⟨day, s, h, att⟩], none)

/-- Modelled from the spec: scan one day over the sample grid, closing any
still-open segment at 22.0. -/
def scanDay (pool : List AvailabilityBlock) (day : Nat) (threshold : Nat) :
    List MeetingSuggestion :=
  match sampleHours.foldl (scanStep pool day threshold) ([], none) with
  | (segs, none) => segs
  | (segs, some (s, att)) => segs ++ [⟨day, s, 22, att⟩]

/-- Modelled from the spec: the ranking relation — attendance descending,
ties broken by duration (`end - start`) descending. -/
def suggGE (a b : MeetingSuggestion) : Prop :=
  b.attendance < a.attendance ∨
    (a.attendance = b.attendance ∧ b.endHour - b.startHour ≤ a.endHour - a.startHour)

instance : DecidableRel suggGE :=
  fun _ _ => inferInstanceAs (Decidable (_ ∨ _ ∧ _))

instance : IsTotal MeetingSuggestion suggGE := by
  refine ⟨fun a b => ?_⟩
  rcases lt_trichotomy a.attendance b.attendance with h | h | h
  · exact Or.inr (Or.inl h)
  · rcases le_total (b.endHour - b.startHour) (a.endHour - a.startHour) with h' | h'
    · exact Or.inl (Or.inr ⟨h, h'⟩)
    · exact Or.inr (Or.inr ⟨h.symm, h'⟩)
  · exact Or.inl (Or.inl h)

instance : IsTrans MeetingSuggestion suggGE := by
  refine ⟨fun a b c hab hbc => ?_⟩
  rcases hab with h | ⟨h1, h2⟩ <;> rcases hbc with h' | ⟨h1', h2'⟩
  · exact Or.inl (lt_trans h' h)
  · exact Or.inl (h1' ▸ h)
  · exact Or.inl (by rw [h1]; exact h')
  · exact Or.inr ⟨h1.trans h1', le_trans h2' h2⟩

/-- Modelled from the spec: `suggestMeetingTimes` — scan every day with
threshold `max 2 (floor (groupSize * 0.5))`, sort all collected segments by
the ranking relation and keep the first `topN`. -/
def suggestMeetingTimes (allIntervals : List AvailabilityBlock) (groupSize : Nat)
    (topN : Nat) : List MeetingSuggestion :=
  (((List.range 7).flatMap fun d =>
      scanDay allIntervals d (max 2 (groupSize / 2))).insertionSort suggGE).take topN

theorem scan_attendance_invariant (pool : List AvailabilityBlock) (day threshold : Nat) :
    ∀ (hs : List ℚ) (acc : List MeetingSuggestion × Option (ℚ × Nat)),
      (∀ sg ∈ acc.1, threshold ≤ sg.attendance) →
      (∀ s a, acc.2 = some (s, a) → threshold ≤ a) →
      (∀ sg ∈ (hs.foldl (scanStep pool day threshold) acc).1, threshold ≤ sg.attendance) ∧
      (∀ s a, (hs.foldl (scanStep pool day threshold) acc).2 = some (s, a) →
        threshold ≤ a) := by
  intro hs
  induction hs with
  | nil => exact fun acc h1 h2 => ⟨h1, h2⟩
  | cons h rest ih =>
    rintro ⟨segs, op⟩ h1 h2
    rw [List.foldl_cons]
    refine ih _ ?_ ?_
    all_goals
      rcases op with _ | ⟨s, att⟩ <;>
        simp only [scanStep] <;>
        by_cases ha : threshold ≤ attendanceAt pool day h
    · rw [if_pos ha]
      exact h1
    · rw [if_neg ha]
      exact h1
    · by_cases he : attendanceAt pool day h = att
      · rw [if_pos ha, if_pos he]
        exact h1
      · rw [if_pos ha, if_neg he]
        intro sg hsg
        rcases List.mem_append.1 hsg with hsg | hsg
        · exact h1 sg hsg
        · rw [List.mem_singleton.1 hsg]
          exact h2 s att rfl
    · rw [if_neg ha]
      intro sg hsg
      rcases List.mem_append.1 hsg with hsg | hsg
      · exact h1 sg hsg
      · rw [List.mem_singleton.1 hsg]
        exact h2 s att rfl
    · rw [if_pos ha]
      intro s' a' he
      cases he
      exact ha
    · rw [if_neg ha]
      intro s' a' he
      exact absurd he (by simp)
    · by_cases he : attendanceAt pool day h = att
      · rw [if_pos ha, if_pos he]
        exact h2
      · rw [if_pos ha, if_neg he]
        intro s' a' he'
        cases he'
        exact ha
    · rw [if_neg ha]
      intro s' a' he
      exact absurd he (by simp)

theorem scanDay_attendance (pool : List AvailabilityBlock) (day threshold : Nat) :
    ∀ sg ∈ scanDay pool day threshold, threshold ≤ sg.attendance := by
  have h := scan_attendance_invariant pool day threshold sampleHours ([], none)
    (by simp) (by simp)
  unfold scanDay
  rcases hfin : sampleHours.foldl (scanStep pool day threshold) ([], none) with ⟨segs, op⟩
  rw [hfin] at h
  rcases op with _ | ⟨s, att⟩
  · exact h.1
  · intro sg hsg
    rcases List.mem_append.1 hsg with hsg | hsg
    · exact h.1 sg hsg
    · rw [List.mem_singleton.1 hsg]
      exact h.2 s att rfl

unseal Rat.add Rat.sub Rat.mul Rat.inv in
/-- C9 (spec-modelled): `suggestMeetingTimes` returns only segments whose
attendance meets the threshold `max 2 (floor (groupSize * 0.5))`, sorted by
attendance descending with ties broken by duration descending, truncated to
`topN`; and in Scenario C — a group of 4 where 3 members share [Tue
14:00-15:00 Available] — it returns exactly the segment
`{day := Tue, start := 14, end := 15, attendance := 3}`. -/
theorem suggest_sorted_thresholded_scenario :
    (∀ (pool : List AvailabilityBlock) (groupSize topN : Nat),
      (suggestMeetingTimes pool groupSize topN).Sorted suggGE ∧
      (suggestMeetingTimes pool groupSize topN).length ≤ topN ∧
      ∀ sg ∈ suggestMeetingTimes pool groupSize topN,
        max 2 (groupSize / 2) ≤ sg.attendance) ∧
    suggestMeetingTimes
      [⟨0, 2, 14, 15, Status.available, 1⟩, ⟨1, 2, 14, 15, Status.available, 2⟩,
       ⟨2, 2, 14, 15, Status.available, 3⟩] 4 3 = [⟨2, 14, 15, 3⟩] := by
  constructor
  · intro pool groupSize topN
    refine ⟨?_, ?_, ?_⟩
    · exact List.Pairwise.sublist (List.take_sublist _ _)
        (List.sorted_insertionSort suggGE _)
    · exact List.length_take_le _ _
    · intro sg hsg
      have hsg' : sg ∈ ((List.range 7).flatMap fun d =>
          scanDay pool d (max 2 (groupSize / 2))).insertionSort suggGE :=
        List.take_subset _ _ hsg
      rw [(List.perm_insertionSort suggGE _).mem_iff] at hsg'
      obtain ⟨d, _, hmem⟩ := List.mem_flatMap.1 hsg'
      exact scanDay_attendance pool d _ sg hmem
  · decide

/-- Witness for C9: the Scenario C segment is in the output and its
attendance 3 meets the threshold 2. -/
theorem suggest_sorted_thresholded_scenario_witness :
    (⟨2, 14, 15, 3⟩ : MeetingSuggestion) ∈ suggestMeetingTimes
      [⟨0, 2, 14, 15, Status.available, 1⟩, ⟨1, 2, 14, 15, Status.available, 2⟩,
       ⟨2, 2, 14, 15, Status.available, 3⟩] 4 3 ∧
    max 2 (4 / 2) ≤ (⟨2, 14, 15, 3⟩ : MeetingSuggestion).attendance := by
  have hmem : (⟨2, 14, 15, 3⟩ : MeetingSuggestion) ∈ suggestMeetingTimes
      [⟨0, 2, 14, 15, Status.available, 1⟩, ⟨1, 2, 14, 15, Status.available, 2⟩,
       ⟨2, 2, 14, 15, Status.available, 3⟩] 4 3 := by
    rw [suggest_sorted_thresholded_scenario.2]
    exact List.mem_singleton.2 rfl
  exact ⟨hmem, (suggest_sorted_thresholded_scenario.1 _ 4 3).2.2 _ hmem⟩

end SyncUp
